import Mathlib

/-!
A shallow embedding of the combo-matching engine in `kmk/modules/combos.py`
(classes `Combo`, `Chord`, `Sequence`, `Combos`).

Modelling conventions:
* Logical keys and matrix coordinates are natural numbers; a combo `match`
  entry is a `KeyRef` (key or coordinate), mirroring that the source compares
  `Key` objects and `int` coordinates that can never be equal to each other.
* `ticks_ms` timestamps are integers; the quantities `d_last`/`d_start`
  computed by `Combos.on_press` use rational division by 1000, exactly as in
  the source (`(current_timepoint - last_timepoint) / 1000`).
* The class attribute `Combos.match_count` mutated by the `Combo.state`
  property setter is threaded explicitly (`mc` arguments, `EState.matchCount`).
* The host keyboard (`resume_process_key`, `set_timeout`, `cancel_timeout`,
  the monotonic clock) is modelled by `KState`; downstream events and timer
  API calls are recorded in lists so that ordering and counting properties
  can be stated.  `KState.maxArmed` records the largest number of
  simultaneously armed timers ever observed.
* Fallible operations (`list.remove` on an absent element raises `ValueError`
  in `Combo.unpress`) return `Option`; the engine entry points return
  `RunRes`, whose `exn` constructor models an uncaught exception and whose
  `fuelOut` constructor is only about the step budget of the embedding.
* The source's dead code (`Combo.insert`, `Combos.send_key_buffer`) is not
  modelled; nothing calls it.
-/

namespace KmkCombos

abbrev Key := ℕ
abbrev Coord := ℕ

/-- An entry of a combo's `match` tuple: either a logical key or an integer
matrix coordinate (`_match_coord` selects which side a combo compares). -/
inductive KeyRef where
  | key (k : Key)
  | coord (c : Coord)
deriving DecidableEq, Repr

/-- The `_ComboState` constants `RESET`, `MATCHING`, `ACTIVE`, `IDLE`. -/
inductive ComboState where
  | reset
  | matching
  | active
  | idle
deriving DecidableEq, Repr

/-- Whether a combo was built by the `Chord` or the `Sequence` subclass; the
two differ only in `matches`/`uses_match` and in their class-level defaults. -/
inductive CKind where
  | chord
  | sequence
deriving DecidableEq, Repr

/-- One combo.  `matchKeys` is the source's `match` field (a keyword in Lean);
`remaining`/`pressed`/`state` are `_remaining`/`pressed`/`_state`.  In the
source `_remaining` defaults to a class-scope `[]` and `pressed` is first
assigned in `reset` (the constructor's `pressed=[]` parameter is never
stored); both are modelled as the empty list at construction, which is
indistinguishable through the engine's entry points because `matches` is only
called on combos in `MATCHING`, a state reached only via `reset`. -/
structure Combo where
  kind : CKind
  matchKeys : List KeyRef
  result : Key
  fast_reset : Bool
  per_key_timeout : Bool
  timeout : ℕ
  matchCoord : Bool
  remaining : List KeyRef
  pressed : List KeyRef
  state : ComboState
deriving DecidableEq, Repr

/-- Contribution of one combo to `Combos.match_count`. -/
def ind (c : Combo) : ℤ := if c.state = ComboState.matching then 1 else 0

/-- The `Combo.state` property setter: a self-transition is a no-op; entering
`MATCHING` increments and leaving `MATCHING` decrements the class attribute
`Combos.match_count` (threaded as `mc`). -/
def stateSet (c : Combo) (mc : ℤ) (ns : ComboState) : Combo × ℤ :=
  if c.state = ns then (c, mc)
  else
    let mc1 := if ns = ComboState.matching then mc + 1 else mc
    let mc2 := if c.state = ComboState.matching then mc1 - 1 else mc1
    ({c with state := ns}, mc2)

/-- `Combo.reset`: `_remaining = list(match)`, `pressed = []`,
`state = MATCHING` (through the property setter). -/
def Combo.reset (c : Combo) (mc : ℤ) : Combo × ℤ :=
  stateSet {c with remaining := c.matchKeys, pressed := []} mc ComboState.matching

/-- `int_coord in l` for a possibly-absent coordinate (`None in l` is false). -/
def coordMem (ic : Option Coord) (l : List KeyRef) : Bool :=
  match ic with
  | none => false
  | some c => decide (KeyRef.coord c ∈ l)

/-- Remove the first occurrence of the coordinate (used after a successful
membership test, mirroring `list.remove`). -/
def eraseCoord (ic : Option Coord) (l : List KeyRef) : List KeyRef :=
  match ic with
  | none => l
  | some c => l.erase (KeyRef.coord c)

/-- Does the head of `_remaining` equal the event's coordinate? -/
def headEqCoord (r : KeyRef) (ic : Option Coord) : Bool :=
  match ic with
  | none => false
  | some c => decide (r = KeyRef.coord c)

/-- `Chord.matches` / `Sequence.matches`: attempt to consume the event against
`_remaining`; returns the consumed flag together with the updated combo.
A chord removes the first matching entry anywhere in `_remaining`; a sequence
only pops the head and appends it to `pressed`. -/
def Combo.matches (c : Combo) (key : Key) (ic : Option Coord) : Bool × Combo :=
  match c.kind with
  | CKind.chord =>
    if !c.matchCoord && decide (KeyRef.key key ∈ c.remaining) then
      (true, {c with remaining := c.remaining.erase (KeyRef.key key)})
    else if c.matchCoord && coordMem ic c.remaining then
      (true, {c with remaining := eraseCoord ic c.remaining})
    else (false, c)
  | CKind.sequence =>
    match c.remaining with
    | [] => (false, c)
    | r :: rest =>
      if (!c.matchCoord && decide (r = KeyRef.key key)) || (c.matchCoord && headEqCoord r ic) then
        (true, {c with remaining := rest, pressed := c.pressed ++ [r]})
      else (false, c)

/-- `Combo.has_match`: `self._match_coord and int_coord in self.match or key
in self.match` (Python precedence: the `and` binds tighter). -/
def Combo.hasMatch (c : Combo) (key : Key) (ic : Option Coord) : Bool :=
  (c.matchCoord && coordMem ic c.matchKeys) || decide (KeyRef.key key ∈ c.matchKeys)

/-- `Combo.uses_match` / `Sequence.uses_match`: for a chord it is `has_match`;
a sequence additionally requires the reference to be in `pressed`. -/
def Combo.usesMatch (c : Combo) (key : Key) (ic : Option Coord) : Bool :=
  match c.kind with
  | CKind.chord => c.hasMatch key ic
  | CKind.sequence =>
    c.hasMatch key ic &&
      ((c.matchCoord && coordMem ic c.pressed) ||
       (!c.matchCoord && decide (KeyRef.key key ∈ c.pressed)))

/-- `Combo.unpress`: `self.pressed.remove(key-or-coord)`.  `none` models the
`ValueError` that `list.remove` raises when the element is absent. -/
def Combo.unpress (c : Combo) (key : Key) (ic : Option Coord) : Option Combo :=
  if c.matchCoord then
    match ic with
    | some cc =>
      if KeyRef.coord cc ∈ c.pressed then
        some {c with pressed := c.pressed.erase (KeyRef.coord cc)}
      else none
    | none => none
  else
    if KeyRef.key key ∈ c.pressed then
      some {c with pressed := c.pressed.erase (KeyRef.key key)}
    else none

/-- `Chord(match, result)` with the class defaults `fast_reset=False`,
`per_key_timeout=False`, `timeout=50`, `_match_coord=False`; the constructor
sets `_state = RESET` directly (not through the property setter). -/
def mkChord (m : List KeyRef) (res : Key) : Combo :=
  ⟨CKind.chord, m, res, false, false, 50, false, [], [], ComboState.reset⟩

/-- `Sequence(match, result)` with the subclass defaults `fast_reset=True`,
`per_key_timeout=True`, `timeout=1000`. -/
def mkSequence (m : List KeyRef) (res : Key) : Combo :=
  ⟨CKind.sequence, m, res, true, true, 1000, false, [], [], ComboState.reset⟩

/-- An event forwarded downstream by `keyboard.resume_process_key`; `time` is
the value of the monotonic clock during the engine entry that emitted it. -/
structure DownEvent where
  key : Key
  isPressed : Bool
  coord : Option Coord
  time : ℤ
deriving DecidableEq, Repr

/-- A record of one call into the host timer facility. -/
inductive TimerCall where
  | set (h : ℕ) (ms : ℕ)
  | cancel (h : ℕ)
deriving DecidableEq, Repr

/-- The host keyboard as observed by the engine: the downstream event list,
the current `ticks_ms` reading, the set of armed one-shot timers (by handle),
a fresh-handle counter, the largest number of simultaneously armed timers
ever reached, and the trace of timer API calls. -/
structure KState where
  downstream : List DownEvent
  clock : ℤ
  armed : List ℕ
  nextHandle : ℕ
  maxArmed : ℕ
  timerCalls : List TimerCall
deriving DecidableEq, Repr

/-- `keyboard.resume_process_key(self, key, is_pressed, int_coord)`. -/
def resumeProcessKey (kb : KState) (key : Key) (isPressed : Bool) (ic : Option Coord) : KState :=
  {kb with downstream := kb.downstream ++ [⟨key, isPressed, ic, kb.clock⟩]}

/-- `keyboard.set_timeout(ms, callback)`: arms a fresh handle and returns it. -/
def setTimeout (kb : KState) (ms : ℕ) : KState × ℕ :=
  let h := kb.nextHandle
  let armed := h :: kb.armed
  ({kb with
      armed := armed
      nextHandle := h + 1
      maxArmed := max kb.maxArmed armed.length
      timerCalls := kb.timerCalls ++ [TimerCall.set h ms]}, h)

/-- `keyboard.cancel_timeout(handle)`: disarms the handle if it is armed;
cancelling a fired or already-cancelled handle is a no-op on the armed set. -/
def cancelTimeout (kb : KState) (h : ℕ) : KState :=
  {kb with armed := kb.armed.erase h, timerCalls := kb.timerCalls ++ [TimerCall.cancel h]}

/-- One element of `Combos._key_buffer`: `(int_coord, key, is_pressed,
timestamp)`. -/
structure BufEvent where
  coord : Option Coord
  key : Key
  isPressed : Bool
  time : ℤ
deriving DecidableEq, Repr

/-- The state of one `Combos` engine instance.  `matchCount` and
`startTimepoint` model the class attributes `Combos.match_count` and
`Combos.start_timepoint` as observed by a single instance (the only situation
in which they behave like instance state); `pendingCombos` stores registry
indices, modelling the Python list of combo object references. -/
structure EState where
  matchCount : ℤ
  startTimepoint : Option ℤ
  combos : List Combo
  keyBuffer : List BufEvent
  pendingCombos : List ℕ
  timeoutHandle : Option ℕ
deriving DecidableEq, Repr

/-- `Combos.__init__(combos)`: zeroes `match_count`, clears
`start_timepoint`, stores the registry, empties the buffers. -/
def initCombos (cs : List Combo) : EState := ⟨0, none, cs, [], [], none⟩

/-- A host keyboard before any interaction. -/
def initKb : KState := ⟨[], 0, [], 0, 0, []⟩

/-- `if self._timeout: keyboard.cancel_timeout(self._timeout)` — the stored
handle is never reset to `None`, so the guard only distinguishes "a timer was
armed at least once" from the fresh state. -/
def cancelStored (e : EState) (kb : KState) : KState :=
  match e.timeoutHandle with
  | some h => cancelTimeout kb h
  | none => kb

/-- `Combos.activate`: emit the result-key press downstream (no coordinate). -/
def activate (kb : KState) (c : Combo) : KState := resumeProcessKey kb c.result true none

/-- `Combos.deactivate`: emit the result-key release downstream. -/
def deactivate (kb : KState) (c : Combo) : KState := resumeProcessKey kb c.result false none

/-- The body of `reset_combos` for one combo: reset it unless it is ACTIVE. -/
def resetOne (c : Combo) (mc : ℤ) : Combo × ℤ :=
  if c.state = ComboState.active then (c, mc) else c.reset mc

/-- `Combos.reset_combos` over the registry list, threading `match_count`. -/
def resetCombosList : List Combo → ℤ → List Combo × ℤ
  | [], mc => ([], mc)
  | c :: cs, mc =>
    let p := resetOne c mc
    let r := resetCombosList cs p.2
    (p.1 :: r.1, r.2)

/-- `Combos.reset_combos`. -/
def resetCombos (e : EState) : EState :=
  let r := resetCombosList e.combos e.matchCount
  {e with combos := r.1, matchCount := r.2}

/-- `Combos.during_bootup`: prime the registry. -/
def bootup (e : EState) : EState := resetCombos e

/-- One update of the `buffer_pressed_vs_released` dict in
`send_pending_combos` (insertion-ordered, like a Python dict). -/
def bumpTally : List ((Option Coord × Key) × ℤ) → (Option Coord × Key) → ℤ →
    List ((Option Coord × Key) × ℤ)
  | [], k, d => [(k, d)]
  | (k', v) :: rest, k, d =>
    if k' = k then (k', v + d) :: rest else (k', v) :: bumpTally rest k d

/-- The `buffer_pressed_vs_released` dict: per `(coord, key)` the number of
buffered presses minus buffered releases, in first-occurrence order. -/
def tallyBuffer (buf : List BufEvent) : List ((Option Coord × Key) × ℤ) :=
  buf.foldl (fun acc ev => bumpTally acc (ev.coord, ev.key) (if ev.isPressed then 1 else -1)) []

/-- The body of `send_pending_combos` for one pending combo (a registry
index): activate it, mark it ACTIVE, then — if any `(coord, key)` of the
buffer has balance ≤ 0 and is a match member — immediately deactivate it and
mark it RESET (the loop `break`s after the first such entry, whose identity
does not affect the result). -/
def sendPendingStep (tally : List ((Option Coord × Key) × ℤ)) (cs : List Combo) (mc : ℤ)
    (kb : KState) (i : ℕ) : List Combo × ℤ × KState :=
  match cs[i]? with
  | none => (cs, mc, kb)
  | some c =>
    let kb := activate kb c
    let p := stateSet c mc ComboState.active
    if tally.any (fun t => decide (t.2 ≤ 0) && p.1.hasMatch t.1.2 t.1.1) then
      let kb := deactivate kb p.1
      let q := stateSet p.1 p.2 ComboState.reset
      (cs.set i q.1, q.2, kb)
    else
      (cs.set i p.1, p.2, kb)

/-- The pending-combo loop of `send_pending_combos`, in registry order. -/
def sendPendingLoop (tally : List ((Option Coord × Key) × ℤ)) :
    List ℕ → List Combo → ℤ → KState → List Combo × ℤ × KState
  | [], cs, mc, kb => (cs, mc, kb)
  | i :: is, cs, mc, kb =>
    let r := sendPendingStep tally cs mc kb i
    sendPendingLoop tally is r.1 r.2.1 r.2.2

/-- `Combos.send_pending_combos`: commit the pending combos, then clear the
pending list and the key buffer, reset the registry and clear
`start_timepoint`. -/
def sendPendingCombos (e : EState) (kb : KState) : EState × KState :=
  let tally := tallyBuffer e.keyBuffer
  let r := sendPendingLoop tally e.pendingCombos e.combos e.matchCount kb
  let e1 := resetCombos {e with
      combos := r.1
      matchCount := r.2.1
      pendingCombos := []
      keyBuffer := []}
  ({e1 with startTimepoint := none}, r.2.2)

/-- `press_vs_released` in `on_release`: the signed count of buffered events
for this `(coord, key)`. -/
def balance (buf : List BufEvent) (key : Key) (ic : Option Coord) : ℤ :=
  ((buf.filter (fun ev => decide (ev.coord = ic) && decide (ev.key = key))).map
    (fun ev => if ev.isPressed then (1 : ℤ) else -1)).sum

/-- The accumulated result of the `for combo in self.combos` loop of
`on_press`: the updated registry and `match_count`, the indices appended to
`_pending_combos`, `longest_timeout` and `matching_unfinished`. -/
structure PressLoopRes where
  combos : List Combo
  mc : ℤ
  pending : List ℕ
  longest : ℕ
  unfinished : ℕ
deriving DecidableEq, Repr

/-- The timing test of `on_press`: the source computes
`d = (millisecond difference) / 1000` with true division and tests
`d < combo.timeout`.  Idealizing the float as an exact rational, the test is
`(delta : ℚ) / 1000 < timeout`, which is implemented here by the equivalent
integer comparison so that it evaluates by kernel reduction;
`ratDivLt_iff` below proves the equivalence. -/
def ratDivLt (delta : ℤ) (timeout : ℕ) : Bool :=
  decide (delta < 1000 * (timeout : ℤ))

/-- The combo loop of `on_press`, iterating the registry in order (`i` is the
index of the head of the remaining list).  A combo not in `MATCHING` is
skipped.  Otherwise `matches` is evaluated first (consuming the event), then
the timing test (`d_last` for `per_key_timeout` combos, else `d_start`,
strictly below `timeout`); on success a fully-consumed combo is appended to
the pending list and an unfinished one counted, and `longest_timeout` is
raised to the combo's timeout; on failure the combo is reset and parked in
`RESET`.  `dlast` and `dstart` are the millisecond differences
`now - last` and `now - start_timepoint`; the division by 1000 performed by
the source lives inside `ratDivLt`. -/
def onPressLoop (key : Key) (ic : Option Coord) (dlast dstart : ℤ) :
    ℕ → List Combo → ℤ → PressLoopRes
  | _, [], mc => ⟨[], mc, [], 0, 0⟩
  | i, c :: cs, mc =>
    if c.state ≠ ComboState.matching then
      let r := onPressLoop key ic dlast dstart (i + 1) cs mc
      ⟨c :: r.combos, r.mc, r.pending, r.longest, r.unfinished⟩
    else
      let m := c.matches key ic
      let c1 := m.2
      let within : Bool :=
        if c1.per_key_timeout then ratDivLt dlast c1.timeout
        else ratDivLt dstart c1.timeout
      if m.1 && within then
        let r := onPressLoop key ic dlast dstart (i + 1) cs mc
        ⟨c1 :: r.combos, r.mc,
         (if c1.remaining = [] then [i] else []) ++ r.pending,
         max c1.timeout r.longest,
         (if c1.remaining = [] then 0 else 1) + r.unfinished⟩
      else
        let p := c1.reset mc
        let q := stateSet p.1 p.2 ComboState.reset
        let r := onPressLoop key ic dlast dstart (i + 1) cs q.2
        ⟨q.1 :: r.combos, r.mc, r.pending, r.longest, r.unfinished⟩

/-- The continuation chosen by the non-recursive part of `on_press`: either
the handler is finished (`done`), or — the `match_count == 0` branch with a
non-empty pending list or key buffer — the buffers must be flushed and the
triggering press re-entered through `process_key` (`reenter`). -/
inductive PressStep where
  | done (e : EState) (kb : KState)
  | reenter (e : EState) (kb : KState)
deriving Repr

/-- The tail of `on_press` after the combo loop: store the loop's updated
registry, `match_count` and `_pending_combos`, then branch.  With
`match_count == 0`, a non-empty pending list or key buffer requires a flush
and re-entry (`reenter`); otherwise the press is forwarded downstream and
the registry reset.  With `match_count > 0`, the press is buffered; if no
matching combo is unfinished the pending combos are committed, else the
timer is armed for `longest_timeout`. -/
def onPressFinish (e1 : EState) (kb1 : KState) (key : Key) (ic : Option Coord) (now : ℤ)
    (r : PressLoopRes) : PressStep :=
  let e2 := {e1 with combos := r.combos, matchCount := r.mc, pendingCombos := r.pending}
  if e2.matchCount = 0 then
    if e2.pendingCombos ≠ [] ∨ e2.keyBuffer ≠ [] then
      PressStep.reenter e2 kb1
    else
      PressStep.done (resetCombos e2) (resumeProcessKey kb1 key true ic)
  else
    let e3 := {e2 with keyBuffer := e2.keyBuffer ++ [⟨ic, key, true, now⟩]}
    if r.unfinished = 0 then
      let p := sendPendingCombos e3 kb1
      PressStep.done p.1 p.2
    else
      let p := setTimeout kb1 r.longest
      PressStep.done {e3 with timeoutHandle := some p.2} p.1

/-- Everything `on_press` does up to (and excluding) its recursive calls:
cancel the stored timer, fill `start_timepoint`, read the last buffered
timestamp, form the millisecond differences for `d_last = (now - last) /
1000` and `d_start = (now - start) / 1000` (the division by 1000 that the
source performs is inside `ratDivLt`), run the combo loop, and finish via
`onPressFinish`. -/
def onPressCore (e : EState) (kb : KState) (key : Key) (ic : Option Coord) : PressStep :=
  let kb1 := cancelStored e kb
  let now := kb1.clock
  let st : ℤ := e.startTimepoint.getD now
  let e1 := {e with startTimepoint := some st}
  let last : ℤ :=
    match e1.keyBuffer.getLast? with
    | some ev => ev.time
    | none => st
  let dlast : ℤ := now - last
  let dstart : ℤ := now - st
  onPressFinish e1 kb1 key ic now (onPressLoop key ic dlast dstart 0 e1.combos e1.matchCount)

/-- The accumulated result of the `for combo in self.combos` loop of
`on_release` (`none` models the `ValueError` from `unpress`):
the updated registry and `match_count`, the keyboard after any
`deactivate` emissions, `longest_timeout`, `propagate_release` and the dead
`buffer_release` flag. -/
structure RelLoopRes where
  combos : List Combo
  mc : ℤ
  kb : KState
  longest : ℕ
  propagate : Bool
  bufferRel : Bool
deriving Repr

/-- The `combo.state == ACTIVE` part of the `on_release` combo loop for a
single combo that `uses_match`es the event: deactivate it (emit the result
release), clear `propagate_release`, and either fully `reset` it
(`fast_reset`) or move it to `MATCHING` through the state setter; a
non-ACTIVE combo passes through unchanged. -/
def relActiveStep (c : Combo) (mc : ℤ) (kb : KState) (pr : Bool) :
    Combo × ℤ × KState × Bool :=
  if c.state = ComboState.active then
    let kb1 := deactivate kb c
    if c.fast_reset then
      let p := c.reset mc
      (p.1, p.2, kb1, false)
    else
      let p := stateSet c mc ComboState.matching
      (p.1, p.2, kb1, false)
  else (c, mc, kb, pr)

/-- The combo loop of `on_release`: combos for which `uses_match` fails are
skipped.  An `ACTIVE` combo goes through `relActiveStep`.  A combo then in
`MATCHING` either (fast_reset, i.e. a sequence in progress) raises
`longest_timeout`, clears `propagate_release`, sets `buffer_release` and
`unpress`es the key — which raises if the key is not in `pressed` — or
(otherwise) is reset. -/
def onReleaseLoop (key : Key) (ic : Option Coord) :
    List Combo → ℤ → KState → ℕ → Bool → Bool → Option RelLoopRes
  | [], mc, kb, lt, pr, br => some ⟨[], mc, kb, lt, pr, br⟩
  | c :: cs, mc, kb, lt, pr, br =>
    if c.usesMatch key ic = false then
      (onReleaseLoop key ic cs mc kb lt pr br).map fun r => {r with combos := c :: r.combos}
    else
      let a := relActiveStep c mc kb pr
      let c1 := a.1
      let mc1 := a.2.1
      let kb1 := a.2.2.1
      let pr1 := a.2.2.2
      if c1.state = ComboState.matching then
        if c1.fast_reset then
          match c1.unpress key ic with
          | none => none
          | some c2 =>
            (onReleaseLoop key ic cs mc1 kb1 (max lt c1.timeout) false true).map
              fun r => {r with combos := c2 :: r.combos}
        else
          let p := c1.reset mc1
          (onReleaseLoop key ic cs p.2 kb1 lt pr1 br).map
            fun r => {r with combos := p.1 :: r.combos}
      else
        (onReleaseLoop key ic cs mc1 kb1 lt pr1 br).map
          fun r => {r with combos := c1 :: r.combos}

/-- The continuation chosen by the non-recursive part of `on_release`:
the resulting state, whether `flush_buffers` must still run, and whether the
release is to be propagated downstream afterwards. -/
structure RelCore where
  e : EState
  kb : KState
  needFlush : Bool
  propagate : Bool
deriving Repr

/-- Everything `on_release` does up to (and excluding) its recursive call:
cancel the stored timer, run the combo loop, apply the event-suppression rule
(`press_vs_released > 0` buffers the release and clears
`propagate_release`), then branch: `match_count == 0` resets the registry and
clears the buffer; a non-zero `longest_timeout` arms the timer; otherwise
`flush_buffers` is required.  `none` models the `ValueError` from
`unpress`. -/
def onReleaseCore (e : EState) (kb : KState) (key : Key) (ic : Option Coord) :
    Option RelCore :=
  let kb1 := cancelStored e kb
  let now := kb1.clock
  match onReleaseLoop key ic e.combos e.matchCount kb1 0 true false with
  | none => none
  | some r =>
    let e1 := {e with combos := r.combos, matchCount := r.mc}
    let bal := balance e1.keyBuffer key ic
    let e2 := if bal > 0 then {e1 with keyBuffer := e1.keyBuffer ++ [⟨ic, key, false, now⟩]} else e1
    let pr := if bal > 0 then false else r.propagate
    if e2.matchCount = 0 then
      some ⟨{resetCombos e2 with keyBuffer := []}, r.kb, false, pr⟩
    else if r.longest ≠ 0 then
      let p := setTimeout r.kb r.longest
      some ⟨{e2 with timeoutHandle := some p.2}, p.1, false, pr⟩
    else
      some ⟨e2, r.kb, true, pr⟩

/-- The outcome of running an engine entry point: normal completion, an
uncaught exception (`ValueError` from `unpress`), or exhaustion of the step
budget of the embedding. -/
inductive RunRes where
  | ok (e : EState) (kb : KState)
  | exn
  | fuelOut
deriving DecidableEq, Repr

/-- Sequencing of engine computations. -/
def RunRes.bind (r : RunRes) (f : EState → KState → RunRes) : RunRes :=
  match r with
  | RunRes.ok e kb => f e kb
  | RunRes.exn => RunRes.exn
  | RunRes.fuelOut => RunRes.fuelOut

/-- A pending engine computation: which of the mutually recursive bodies of
`process_key` / `on_press` / `on_release` / `flush_buffers` (its `while`
loop and its replay `for` loop are separate shapes) is to run next.  A
single structurally fuel-recursive interpreter keeps every entry point
computable by kernel reduction. -/
inductive Call where
  | doProcessKey (key : Key) (isPressed : Bool) (ic : Option Coord)
  | doPress (key : Key) (ic : Option Coord)
  | doRelease (key : Key) (ic : Option Coord)
  | doFlush
  | doFlushLoop
  | doReplay (key : Key) (ic : Option Coord) (old : List BufEvent)
deriving Repr

/-- The engine interpreter.  `doProcessKey` dispatches on `is_pressed`.
`doPress` runs `onPressCore`; in its `match_count == 0` re-entry branch the
flush is followed by `start_timepoint = current_timepoint` and a recursive
`process_key` of the triggering press (the clock is unchanged during the
handler).  `doRelease` runs `onReleaseCore`, then the flush branch if
required, and finally forwards the release downstream when
`propagate_release` survived.  `doFlush` commits pending combos if any
(which empties the buffer) and enters the `while` loop.  `doFlushLoop` pops
the head event and forwards it downstream; on a press it resets the
registry, sets `start_timepoint` to the popped timestamp, detaches the tail
as `old_buffer`, replays it, and continues with whatever the replay left in
the buffer.  `doReplay` forwards a release of the just-replayed press
downstream directly and re-enters every tail event — that release included —
through `process_key`. -/
def run : ℕ → Call → EState → KState → RunRes
  | 0, _, _, _ => RunRes.fuelOut
  | fuel + 1, call, e, kb =>
    match call with
    | Call.doProcessKey key ip ic =>
      if ip then run fuel (Call.doPress key ic) e kb
      else run fuel (Call.doRelease key ic) e kb
    | Call.doPress key ic =>
      match onPressCore e kb key ic with
      | PressStep.done e1 kb1 => RunRes.ok e1 kb1
      | PressStep.reenter e1 kb1 =>
        (run fuel Call.doFlush e1 kb1).bind fun e2 kb2 =>
          run fuel (Call.doProcessKey key true ic)
            {e2 with startTimepoint := some kb2.clock} kb2
    | Call.doRelease key ic =>
      match onReleaseCore e kb key ic with
      | none => RunRes.exn
      | some r =>
        (if r.needFlush then run fuel Call.doFlush r.e r.kb else RunRes.ok r.e r.kb).bind
          fun e2 kb2 =>
            RunRes.ok e2 (if r.propagate then resumeProcessKey kb2 key false ic else kb2)
    | Call.doFlush =>
      let p := if e.pendingCombos ≠ [] then sendPendingCombos e kb else (e, kb)
      run fuel Call.doFlushLoop p.1 p.2
    | Call.doFlushLoop =>
      match e.keyBuffer with
      | [] => RunRes.ok e kb
      | ev :: rest =>
        let kb1 := resumeProcessKey kb ev.key ev.isPressed ev.coord
        if ev.isPressed then
          let e2 := {resetCombos {e with keyBuffer := rest} with
              startTimepoint := some ev.time
              keyBuffer := []}
          (run fuel (Call.doReplay ev.key ev.coord rest) e2 kb1).bind fun e3 kb3 =>
            run fuel Call.doFlushLoop e3 kb3
        else
          run fuel Call.doFlushLoop {e with keyBuffer := rest} kb1
    | Call.doReplay key ic old =>
      match old with
      | [] => RunRes.ok e kb
      | bev :: old' =>
        let kb1 :=
          if !bev.isPressed && decide (key = bev.key) && decide (ic = bev.coord) then
            resumeProcessKey kb bev.key bev.isPressed bev.coord
          else kb
        (run fuel (Call.doProcessKey bev.key bev.isPressed bev.coord) e kb1).bind
          fun e2 kb2 => run fuel (Call.doReplay key ic old') e2 kb2

/-- `Combos.process_key`: dispatch to `on_press` / `on_release`. -/
def processKey (fuel : ℕ) (e : EState) (kb : KState) (key : Key) (isPressed : Bool)
    (ic : Option Coord) : RunRes :=
  run fuel (Call.doProcessKey key isPressed ic) e kb

/-- `Combos.on_press`. -/
def onPress (fuel : ℕ) (e : EState) (kb : KState) (key : Key) (ic : Option Coord) : RunRes :=
  run fuel (Call.doPress key ic) e kb

/-- `Combos.on_release`. -/
def onRelease (fuel : ℕ) (e : EState) (kb : KState) (key : Key) (ic : Option Coord) : RunRes :=
  run fuel (Call.doRelease key ic) e kb

/-- `Combos.flush_buffers`. -/
def flushBuffers (fuel : ℕ) (e : EState) (kb : KState) : RunRes :=
  run fuel Call.doFlush e kb

/-- `Combos.on_timeout`: clear `start_timepoint` and flush.  The stored
`_timeout` handle is not touched. -/
def onTimeout (fuel : ℕ) (e : EState) (kb : KState) : RunRes :=
  flushBuffers fuel {e with startTimepoint := none} kb

/-- An external stimulus: a key press or release delivered through
`process_key` at clock value `now`, or the firing of the one-shot timer with
handle `h` (the timer system removes a firing handle from the armed set; a
cancelled handle firing is a no-op on that set). -/
inductive Entry where
  | press (k : Key) (ic : Option Coord) (now : ℤ)
  | release (k : Key) (ic : Option Coord) (now : ℤ)
  | fire (h : ℕ) (now : ℤ)
deriving DecidableEq, Repr

/-- Deliver one external stimulus. -/
def runEntry (fuel : ℕ) (e : EState) (kb : KState) : Entry → RunRes
  | Entry.press k ic now => processKey fuel e {kb with clock := now} k true ic
  | Entry.release k ic now => processKey fuel e {kb with clock := now} k false ic
  | Entry.fire h now =>
    onTimeout fuel e {kb with clock := now, armed := kb.armed.erase h}

/-- Deliver a sequence of external stimuli. -/
def runEntries (fuel : ℕ) : EState → KState → List Entry → RunRes
  | e, kb, [] => RunRes.ok e kb
  | e, kb, ent :: rest =>
    (runEntry fuel e kb ent).bind fun e1 kb1 => runEntries fuel e1 kb1 rest

/-- The downstream event list of a completed run. -/
def downstreamOf : RunRes → Option (List DownEvent)
  | RunRes.ok _ kb => some kb.downstream
  | _ => none

/-- Does a completed run satisfy the `match_count` bookkeeping invariant?
(`true` vacuously for exceptional or exhausted runs, which produce no
state). -/
def mcOk : RunRes → Bool
  | RunRes.ok e _ => e.matchCount == ((e.combos.filter fun c => c.state == ComboState.matching).length : ℤ)
  | _ => true

/-- Was more than one timer ever armed simultaneously during a completed
run? -/
def timerOk : RunRes → Bool
  | RunRes.ok _ kb => decide (kb.maxArmed ≤ 1)
  | _ => true

/-- The concrete keys of the spec's end-to-end scenarios. -/
def kA : Key := 0

def kB : Key := 1

def kC : Key := 2

def kX : Key := 10

def kY : Key := 11

/-- `Chord((KC.A, KC.B), KC.X)` with the default `timeout=50`. -/
def chordAB : Combo := mkChord [KeyRef.key kA, KeyRef.key kB] kX

/-- `Sequence((KC.A, KC.B, KC.C), KC.Y)` with the defaults `timeout=1000`,
`per_key_timeout=True`, `fast_reset=True`. -/
def seqABC : Combo := mkSequence [KeyRef.key kA, KeyRef.key kB, KeyRef.key kC] kY

/-- `Sequence((KC.A, KC.B), KC.Y)`. -/
def seqAB : Combo := mkSequence [KeyRef.key kA, KeyRef.key kB] kY

/-!
Class-attribute sharing between `Combos` instances.  In the source,
`match_count` and `start_timepoint` are declared at class scope and are
written as `Combos.match_count` / `Combos.start_timepoint` both in
`Combos.__init__` and in the `Combo.state` property setter, so every
instance reads and writes the same value.  `self.start_timepoint = ...`
assignments in `on_press` / `on_timeout` / `flush_buffers` /
`send_pending_combos`, by contrast, create an instance attribute that
shadows the class attribute from then on.  `PyWorld` models this for two
instances: the class attributes, plus the per-instance state of the first
instance (its registry and its optional instance-level `start_timepoint`
slot). -/
structure PyWorld where
  clsMatchCount : ℤ
  clsStart : Option ℤ
  inst1Combos : List Combo
  inst1InstStart : Option (Option ℤ)
deriving DecidableEq, Repr

/-- What `self.match_count` evaluates to on the first instance: attribute
lookup finds the class attribute. -/
def observedMatchCount (w : PyWorld) : ℤ := w.clsMatchCount

/-- What `self.start_timepoint` evaluates to on the first instance: the
instance attribute if one was ever assigned, else the class attribute. -/
def observedStart (w : PyWorld) : Option ℤ := w.inst1InstStart.getD w.clsStart

/-- `during_bootup` of the first instance: `reset_combos`, whose state
setter updates the shared `Combos.match_count`. -/
def inst1Bootup (w : PyWorld) : PyWorld :=
  let r := resetCombosList w.inst1Combos w.clsMatchCount
  {w with inst1Combos := r.1, clsMatchCount := r.2}

/-- `Combos.__init__` of a *second* instance: it executes
`Combos.match_count = 0` and `Combos.start_timepoint = None`, class-level
assignments that overwrite the attributes every other instance observes;
the first instance's own fields are untouched. -/
def constructSecondInstance (w : PyWorld) : PyWorld :=
  {w with clsMatchCount := 0, clsStart := none}

/-- A two-combo world primed by the first instance's bootup. -/
def demoWorld : PyWorld :=
  inst1Bootup ⟨0, none, [chordAB, seqABC], none⟩

/-- An engine state with a stored (fired or cancelled) timer handle, used to
instantiate theorems about `_timeout` handling. -/
def eDemo : EState :=
  ⟨0, none, [chordAB], [], [], some 5⟩

/-- An idle primed engine: both combos `MATCHING`, buffers empty. -/
def eIdle : EState := bootup (initCombos [chordAB, seqABC])

/-- A sample stimulus list used to instantiate the reachable-state
invariants at concrete inputs. -/
def demoEntries : List Entry :=
  [Entry.press kA none 0, Entry.release kA none 20, Entry.press kB none 100,
   Entry.fire 2 1200, Entry.press kC none 1300, Entry.release kC none 1310]

/-- The sum of `MATCHING` indicators over a registry; equals the number of
combos in `MATCHING` (`indSum_eq_filterLength`). -/
def indSum (cs : List Combo) : ℤ := (cs.map ind).sum

/-- The `match_count` bookkeeping invariant: the class attribute equals the
number of combos of this instance currently in `MATCHING`. -/
def invMC (e : EState) : Prop := e.matchCount = indSum e.combos

/-- The timer invariant: at most one timer is armed — the armed set is empty
or the singleton of the handle stored in `_timeout` — and no moment in the
past ever had more than one timer armed. -/
def timerInv (e : EState) (kb : KState) : Prop :=
  (kb.armed = [] ∨ ∃ h, kb.armed = [h] ∧ e.timeoutHandle = some h) ∧ kb.maxArmed ≤ 1

/-- Preservation bundle for one engine computation from `(e, kb)` to
`(e', kb')`: it preserves the `match_count` invariant and the timer
invariant, only appends to the timer-call trace, and never clears the stored
`_timeout` handle. -/
def Good (e : EState) (kb : KState) (e' : EState) (kb' : KState) : Prop :=
  (invMC e → invMC e') ∧
  (timerInv e kb → timerInv e' kb') ∧
  (∃ s, kb'.timerCalls = kb.timerCalls ++ s) ∧
  (e.timeoutHandle.isSome = true → e'.timeoutHandle.isSome = true)

/-- A keyboard transformation that can only forward events downstream: the
armed-timer set, the high-water mark of armed timers, the timer-call trace
and the clock are untouched. -/
def kbNeutral (kb kb' : KState) : Prop :=
  kb'.armed = kb.armed ∧ kb'.maxArmed = kb.maxArmed ∧
    kb'.timerCalls = kb.timerCalls ∧ kb'.clock = kb.clock

/-- The engine state carried by a `PressStep`. -/
def PressStep.e : PressStep → EState
  | PressStep.done e _ => e
  | PressStep.reenter e _ => e

/-- The keyboard state carried by a `PressStep`. -/
def PressStep.kb : PressStep → KState
  | PressStep.done _ kb => kb
  | PressStep.reenter _ kb => kb

/-- C1.  The claim states that when no combo ever completes, the downstream
sequence equals the raw input sequence with no event duplicated, every
buffered release being forwarded exactly once by `flush_buffers`.  The code
violates this: with the registry `[Sequence([A,B] -> Y)]`, pressing A at 0,
releasing A at 20 (both buffered; no combo ever completes) and letting the
armed timer fire at 1020 produces the A release downstream twice — once via
the direct `resume_process_key` in the replay loop of `flush_buffers`, and a
second time via the re-entered `process_key`, whose `propagate_release`
survives because the reset sequence no longer `uses_match`es the key. -/
theorem duplicate_release_on_flush :
    downstreamOf (runEntries 40 (bootup (initCombos [seqAB])) initKb
      [Entry.press kA none 0, Entry.release kA none 20, Entry.fire 1 1020]) =
    some [⟨kA, true, none, 1020⟩, ⟨kA, false, none, 1020⟩, ⟨kA, false, none, 1020⟩] := by
  decide

/-- C2.  The claim states that a matching combo survives a press exactly when
the elapsed delta in milliseconds is strictly below `combo.timeout`, so that
with `Chord({A,B} -> X, timeout=50)` the presses A@0ms and B@80ms exceed the
window and no X is produced.  The code divides the millisecond difference by
1000 before comparing (`d_start = (current - start) / 1000`), so at B@80 it
tests `0.08 < 50`, keeps the chord alive, and commits it: downstream receives
exactly the X press and neither A nor B. -/
theorem chord_timeout_ms_bug :
    downstreamOf (runEntries 40 (bootup (initCombos [chordAB])) initKb
      [Entry.press kA none 0, Entry.press kB none 80]) =
    some [⟨kX, true, none, 80⟩] := by
  decide

/-- C3.  The claim states that the sequence-completion scenario produces
exactly `Y down @200, Y up @220`.  In the code, `send_pending_combos`
deactivates a freshly activated combo as soon as any buffered `(coord, key)`
with balance ≤ 0 is one of its match members; the buffered releases of A and
B (balances 0) are members of the completed sequence, so Y is pressed and
immediately released during the C press at 200, and the raw C release is
forwarded at 220. -/
theorem sequence_completion_deactivated_bug :
    downstreamOf (runEntries 40 (bootup (initCombos [chordAB, seqABC])) initKb
      [Entry.press kA none 0, Entry.release kA none 20, Entry.press kB none 100,
       Entry.release kB none 120, Entry.press kC none 200, Entry.release kC none 220]) =
    some [⟨kY, true, none, 200⟩, ⟨kY, false, none, 200⟩, ⟨kC, false, none, 220⟩] := by
  decide

/-- C5.  The claim states that `on_release` always runs to completion and
`combo.unpress` is only invoked when the key is in the combo's `pressed`
list.  The code violates this: completing `Sequence([A,B] -> Y)` (press A@0,
press B@10) makes it ACTIVE with `fast_reset=True`; releasing A then enters
the ACTIVE branch, calls `combo.reset()` — emptying `pressed` — falls through
into the MATCHING branch and calls `combo.unpress`, i.e.
`pressed.remove(A)` on an empty list, raising `ValueError` (modelled as
`RunRes.exn`). -/
theorem unpress_value_error :
    runEntries 40 (bootup (initCombos [seqAB])) initKb
      [Entry.press kA none 0, Entry.press kB none 10, Entry.release kA none 30] =
    RunRes.exn := by
  decide

/-- C6.  Abandoned chord: with the registry
`[Chord({A,B} -> X, 50), Sequence([A,B,C] -> Y, 1000)]`, pressing A at 0 and
then C at 5 (C belongs to no combo) resets every matcher, flushes the
buffered A press downstream first, and then forwards the re-processed C
press; downstream is exactly `A down, C down` and no X is emitted. -/
theorem abandoned_chord_replay :
    downstreamOf (runEntries 40 (bootup (initCombos [chordAB, seqABC])) initKb
      [Entry.press kA none 0, Entry.press kC none 5]) =
    some [⟨kA, true, none, 5⟩, ⟨kC, true, none, 5⟩] := by
  decide

/-- The integer comparison implementing the timing test is equivalent to the
source's rational test `(delta / 1000) < timeout`. -/
theorem ratDivLt_iff (delta : ℤ) (timeout : ℕ) :
    ratDivLt delta timeout = true ↔ ((delta : ℚ) / 1000 < (timeout : ℚ)) := by
  unfold ratDivLt
  rw [decide_eq_true_eq, div_lt_iff₀ (by norm_num : (0 : ℚ) < 1000), mul_comm]
  constructor <;> intro h <;> exact_mod_cast h

/-- `matches` consumes from `_remaining` (and, for sequences, pushes onto
`pressed`) but never changes a combo's state. -/
theorem matches_state (c : Combo) (key : Key) (ic : Option Coord) :
    ((c.matches key ic).2).state = c.state := by
  unfold Combo.matches
  rcases c with ⟨kind, mks, res, fr, pk, tmo, mcd, rem, prs, st⟩
  cases kind
  · dsimp only
    split_ifs <;> rfl
  · dsimp only
    cases rem with
    | nil => rfl
    | cons r rest => dsimp only; split_ifs <;> rfl

/-- `unpress` removes from `pressed` but never changes a combo's state. -/
theorem unpress_state (c : Combo) (key : Key) (ic : Option Coord) (c2 : Combo)
    (h : c.unpress key ic = some c2) : c2.state = c.state := by
  unfold Combo.unpress at h
  split_ifs at h with hmc hm
  · cases ic with
    | none => exact Option.noConfusion h
    | some cc =>
      dsimp only at h
      split_ifs at h with hm2
      injection h with h2
      rw [← h2]
  · injection h with h2
    rw [← h2]

/-- The state stored by the `state` property setter. -/
theorem stateSet_state (c : Combo) (mc : ℤ) (ns : ComboState) :
    (stateSet c mc ns).1.state = ns := by
  unfold stateSet
  split_ifs with h <;> simp_all

/-- The `match_count` bookkeeping performed by the `state` property setter:
the new count is the old one minus the old indicator plus the new one. -/
theorem stateSet_mc (c : Combo) (mc : ℤ) (ns : ComboState) :
    (stateSet c mc ns).2 = mc - ind c + ind (stateSet c mc ns).1 := by
  unfold stateSet ind
  split_ifs <;> ring

/-- `Combo.reset` leaves a combo in `MATCHING`. -/
theorem reset_state (c : Combo) (mc : ℤ) :
    (c.reset mc).1.state = ComboState.matching :=
  stateSet_state _ mc ComboState.matching

/-- `Combo.reset` adjusts `match_count` by the indicator difference. -/
theorem reset_mc (c : Combo) (mc : ℤ) :
    (c.reset mc).2 = mc - ind c + ind (c.reset mc).1 :=
  stateSet_mc {c with remaining := c.matchKeys, pressed := []} mc ComboState.matching

/-- One `reset_combos` step adjusts `match_count` by the indicator
difference. -/
theorem resetOne_mc (c : Combo) (mc : ℤ) :
    (resetOne c mc).2 = mc - ind c + ind (resetOne c mc).1 := by
  unfold resetOne
  split_ifs with h
  · ring
  · exact reset_mc c mc

theorem indSum_nil : indSum [] = 0 := rfl

theorem indSum_cons (c : Combo) (cs : List Combo) :
    indSum (c :: cs) = ind c + indSum cs := by
  simp [indSum]

/-- `indSum` is the number of combos in `MATCHING`. -/
theorem indSum_eq_filterLength (cs : List Combo) :
    indSum cs = (((cs.filter fun c => c.state == ComboState.matching).length : ℕ) : ℤ) := by
  induction cs with
  | nil => rfl
  | cons c cs ih =>
    by_cases h : c.state = ComboState.matching
    · simp [indSum_cons, List.filter_cons, h, ind, ih]
      omega
    · simp [indSum_cons, List.filter_cons, h, ind, ih]

/-- A registry of freshly constructed combos has no `MATCHING` member. -/
theorem indSum_fresh (cs : List Combo) (h : ∀ c ∈ cs, c.state = ComboState.reset) :
    indSum cs = 0 := by
  induction cs with
  | nil => rfl
  | cons c cs ih =>
    have hc := h c (by simp)
    simp [indSum_cons, ind, hc, ih fun c hc' => h c (by simp [hc'])]

/-- Updating position `i` of a registry changes `indSum` by the indicator
difference. -/
theorem indSum_set (cs : List Combo) (i : ℕ) (c c' : Combo) (h : cs[i]? = some c) :
    indSum (cs.set i c') = indSum cs - ind c + ind c' := by
  induction cs generalizing i with
  | nil => simp at h
  | cons d cs ih =>
    cases i with
    | zero =>
      simp only [List.getElem?_cons_zero, Option.some.injEq] at h
      subst h
      simp only [List.set_cons_zero, indSum_cons]
      ring
    | succ n =>
      simp only [List.getElem?_cons_succ] at h
      simp only [List.set_cons_succ, indSum_cons, ih n h]
      ring

/-- `reset_combos` over a list adjusts the threaded `match_count` by the
`indSum` difference. -/
theorem resetCombosList_mc (cs : List Combo) (mc : ℤ) :
    (resetCombosList cs mc).2 = mc - indSum cs + indSum (resetCombosList cs mc).1 := by
  induction cs generalizing mc with
  | nil => simp [resetCombosList, indSum_nil]
  | cons c cs ih =>
    simp only [resetCombosList, indSum_cons]
    have h1 := resetOne_mc c mc
    have h2 := ih (resetOne c mc).2
    omega

/-- `reset_combos` preserves the `match_count` invariant. -/
theorem resetCombos_invMC (e : EState) (h : invMC e) : invMC (resetCombos e) := by
  have hx := resetCombosList_mc e.combos e.matchCount
  unfold invMC at h
  show (resetCombosList e.combos e.matchCount).2 =
    indSum (resetCombosList e.combos e.matchCount).1
  omega

/-- `ind` only looks at the state. -/
theorem ind_eq_of_state {c c' : Combo} (h : c'.state = c.state) : ind c' = ind c := by
  unfold ind
  rw [h]

theorem kbNeutral_refl (kb : KState) : kbNeutral kb kb := ⟨rfl, rfl, rfl, rfl⟩

theorem kbNeutral_trans {k1 k2 k3 : KState} (a : kbNeutral k1 k2) (b : kbNeutral k2 k3) :
    kbNeutral k1 k3 :=
  ⟨b.1.trans a.1, b.2.1.trans a.2.1, b.2.2.1.trans a.2.2.1, b.2.2.2.trans a.2.2.2⟩

/-- Forwarding an event downstream touches no timer state. -/
theorem resume_kbNeutral (kb : KState) (key : Key) (p : Bool) (ic : Option Coord) :
    kbNeutral kb (resumeProcessKey kb key p ic) := ⟨rfl, rfl, rfl, rfl⟩

/-- The combo loop of `on_press` changes `match_count` exactly by the
`indSum` difference of the registry. -/
theorem onPressLoop_mc (key : Key) (ic : Option Coord) (dl ds : ℤ) :
    ∀ (cs : List Combo) (i : ℕ) (mc : ℤ),
      (onPressLoop key ic dl ds i cs mc).mc =
        mc - indSum cs + indSum (onPressLoop key ic dl ds i cs mc).combos := by
  intro cs
  induction cs with
  | nil =>
    intro i mc
    simp [onPressLoop, indSum_nil]
  | cons c cs ih =>
    intro i mc
    simp only [onPressLoop]
    by_cases h1 : c.state ≠ ComboState.matching
    · rw [if_pos h1]
      dsimp only
      rw [indSum_cons, indSum_cons]
      have := ih (i + 1) mc
      omega
    · rw [if_neg h1]
      by_cases h2 : ((c.matches key ic).1 &&
          (if (c.matches key ic).2.per_key_timeout then ratDivLt dl (c.matches key ic).2.timeout
           else ratDivLt ds (c.matches key ic).2.timeout)) = true
      · rw [if_pos h2]
        dsimp only
        rw [indSum_cons, indSum_cons]
        have hst : ind (c.matches key ic).2 = ind c :=
          ind_eq_of_state (matches_state c key ic)
        have := ih (i + 1) mc
        omega
      · rw [if_neg h2]
        dsimp only
        rw [indSum_cons, indSum_cons]
        have hst : ind (c.matches key ic).2 = ind c :=
          ind_eq_of_state (matches_state c key ic)
        have hp := reset_mc (c.matches key ic).2 mc
        have hq := stateSet_mc ((c.matches key ic).2.reset mc).1
          ((c.matches key ic).2.reset mc).2 ComboState.reset
        have := ih (i + 1)
          (stateSet ((c.matches key ic).2.reset mc).1
            ((c.matches key ic).2.reset mc).2 ComboState.reset).2
        omega

/-- `relActiveStep` changes `match_count` exactly by the indicator
difference of its combo and touches no timer state. -/
theorem relActiveStep_props (c : Combo) (mc : ℤ) (kb : KState) (pr : Bool) :
    (relActiveStep c mc kb pr).2.1 =
        mc - ind c + ind (relActiveStep c mc kb pr).1 ∧
      kbNeutral kb (relActiveStep c mc kb pr).2.2.1 := by
  unfold relActiveStep
  split_ifs with h1 h2
  · exact ⟨reset_mc c mc, ⟨rfl, rfl, rfl, rfl⟩⟩
  · exact ⟨stateSet_mc c mc ComboState.matching, ⟨rfl, rfl, rfl, rfl⟩⟩
  · constructor
    · dsimp only
      ring
    · exact kbNeutral_refl kb

/-- The combo loop of `on_release` (when it does not raise) changes
`match_count` exactly by the `indSum` difference of the registry and touches
no timer state. -/
theorem onReleaseLoop_props (key : Key) (ic : Option Coord) :
    ∀ (cs : List Combo) (mc : ℤ) (kb : KState) (lt : ℕ) (pr br : Bool) (r : RelLoopRes),
      onReleaseLoop key ic cs mc kb lt pr br = some r →
      r.mc = mc - indSum cs + indSum r.combos ∧ kbNeutral kb r.kb := by
  intro cs
  induction cs with
  | nil =>
    intro mc kb lt pr br r h
    simp only [onReleaseLoop, Option.some.injEq] at h
    rw [← h]
    exact ⟨by rw [indSum_nil]; ring, kbNeutral_refl kb⟩
  | cons c cs ih =>
    intro mc kb lt pr br r h
    simp only [onReleaseLoop] at h
    by_cases hu : c.usesMatch key ic = false
    · rw [if_pos hu] at h
      cases hrec : onReleaseLoop key ic cs mc kb lt pr br with
      | none =>
        rw [hrec] at h
        exact Option.noConfusion h
      | some rr =>
        rw [hrec] at h
        simp only [Option.map_some', Option.some.injEq] at h
        rw [← h]
        obtain ⟨ih1, ih2⟩ := ih mc kb lt pr br rr hrec
        constructor
        · show rr.mc = mc - indSum (c :: cs) + indSum (c :: rr.combos)
          rw [indSum_cons, indSum_cons]
          omega
        · exact ih2
    · rw [if_neg hu] at h
      obtain ⟨ha1, ha2⟩ := relActiveStep_props c mc kb pr
      by_cases hm : (relActiveStep c mc kb pr).1.state = ComboState.matching
      · rw [if_pos hm] at h
        by_cases hfr : (relActiveStep c mc kb pr).1.fast_reset = true
        · rw [if_pos hfr] at h
          cases hun : (relActiveStep c mc kb pr).1.unpress key ic with
          | none =>
            rw [hun] at h
            exact Option.noConfusion h
          | some c2 =>
            rw [hun] at h
            cases hrec : onReleaseLoop key ic cs (relActiveStep c mc kb pr).2.1
                (relActiveStep c mc kb pr).2.2.1
                (max lt (relActiveStep c mc kb pr).1.timeout) false true with
            | none =>
              rw [hrec] at h
              exact Option.noConfusion h
            | some rr =>
              rw [hrec] at h
              simp only [Option.map_some', Option.some.injEq] at h
              rw [← h]
              obtain ⟨ih1, ih2⟩ := ih _ _ _ _ _ rr hrec
              have hc2 : ind c2 = ind (relActiveStep c mc kb pr).1 :=
                ind_eq_of_state (unpress_state _ key ic c2 hun)
              constructor
              · show rr.mc = mc - indSum (c :: cs) + indSum (c2 :: rr.combos)
                rw [indSum_cons, indSum_cons]
                omega
              · exact kbNeutral_trans ha2 ih2
        · rw [if_neg hfr] at h
          cases hrec : onReleaseLoop key ic cs
              ((relActiveStep c mc kb pr).1.reset (relActiveStep c mc kb pr).2.1).2
              (relActiveStep c mc kb pr).2.2.1 lt (relActiveStep c mc kb pr).2.2.2 br with
          | none =>
            rw [hrec] at h
            exact Option.noConfusion h
          | some rr =>
            rw [hrec] at h
            simp only [Option.map_some', Option.some.injEq] at h
            rw [← h]
            obtain ⟨ih1, ih2⟩ := ih _ _ _ _ _ rr hrec
            have hp := reset_mc (relActiveStep c mc kb pr).1 (relActiveStep c mc kb pr).2.1
            constructor
            · show rr.mc = mc - indSum (c :: cs) +
                indSum (((relActiveStep c mc kb pr).1.reset (relActiveStep c mc kb pr).2.1).1
                  :: rr.combos)
              rw [indSum_cons, indSum_cons]
              omega
            · exact kbNeutral_trans ha2 ih2
      · rw [if_neg hm] at h
        cases hrec : onReleaseLoop key ic cs (relActiveStep c mc kb pr).2.1
            (relActiveStep c mc kb pr).2.2.1 lt (relActiveStep c mc kb pr).2.2.2 br with
        | none =>
          rw [hrec] at h
          exact Option.noConfusion h
        | some rr =>
          rw [hrec] at h
          simp only [Option.map_some', Option.some.injEq] at h
          rw [← h]
          obtain ⟨ih1, ih2⟩ := ih _ _ _ _ _ rr hrec
          constructor
          · show rr.mc = mc - indSum (c :: cs) + indSum ((relActiveStep c mc kb pr).1 :: rr.combos)
            rw [indSum_cons, indSum_cons]
            omega
          · exact kbNeutral_trans ha2 ih2

/-- One commit step of `send_pending_combos` changes `match_count` exactly by
the `indSum` difference of the registry. -/
theorem sendPendingStep_mc (t : List ((Option Coord × Key) × ℤ)) (cs : List Combo) (mc : ℤ)
    (kb : KState) (i : ℕ) :
    (sendPendingStep t cs mc kb i).2.1 =
      mc - indSum cs + indSum (sendPendingStep t cs mc kb i).1 := by
  unfold sendPendingStep
  cases hg : cs[i]? with
  | none =>
    dsimp only
    omega
  | some c =>
    dsimp only
    split_ifs with hb
    · have h1 := stateSet_mc c mc ComboState.active
      have h2 := stateSet_mc (stateSet c mc ComboState.active).1
        (stateSet c mc ComboState.active).2 ComboState.reset
      have h3 := indSum_set cs i c
        (stateSet (stateSet c mc ComboState.active).1
          (stateSet c mc ComboState.active).2 ComboState.reset).1 hg
      dsimp only
      omega
    · have h1 := stateSet_mc c mc ComboState.active
      have h3 := indSum_set cs i c (stateSet c mc ComboState.active).1 hg
      dsimp only
      omega

/-- One commit step of `send_pending_combos` touches no timer state. -/
theorem sendPendingStep_kb (t : List ((Option Coord × Key) × ℤ)) (cs : List Combo) (mc : ℤ)
    (kb : KState) (i : ℕ) : kbNeutral kb (sendPendingStep t cs mc kb i).2.2 := by
  unfold sendPendingStep
  cases cs[i]? with
  | none => exact kbNeutral_refl kb
  | some c =>
    dsimp only
    split_ifs <;> exact ⟨rfl, rfl, rfl, rfl⟩

/-- The commit loop of `send_pending_combos` changes `match_count` exactly by
the `indSum` difference of the registry and touches no timer state. -/
theorem sendPendingLoop_props (t : List ((Option Coord × Key) × ℤ)) :
    ∀ (pend : List ℕ) (cs : List Combo) (mc : ℤ) (kb : KState),
      (sendPendingLoop t pend cs mc kb).2.1 =
          mc - indSum cs + indSum (sendPendingLoop t pend cs mc kb).1 ∧
        kbNeutral kb (sendPendingLoop t pend cs mc kb).2.2 := by
  intro pend
  induction pend with
  | nil =>
    intro cs mc kb
    constructor
    · show mc = mc - indSum cs + indSum cs
      omega
    · exact kbNeutral_refl kb
  | cons i is ih =>
    intro cs mc kb
    simp only [sendPendingLoop]
    obtain ⟨h1, h2⟩ := sendPendingStep_mc t cs mc kb i, sendPendingStep_kb t cs mc kb i
    obtain ⟨h3, h4⟩ := ih (sendPendingStep t cs mc kb i).1 (sendPendingStep t cs mc kb i).2.1
      (sendPendingStep t cs mc kb i).2.2
    exact ⟨by omega, kbNeutral_trans h2 h4⟩

/-- `send_pending_combos` preserves the `match_count` invariant. -/
theorem sendPendingCombos_invMC (e : EState) (kb : KState) (h : invMC e) :
    invMC (sendPendingCombos e kb).1 := by
  have hl := (sendPendingLoop_props (tallyBuffer e.keyBuffer) e.pendingCombos e.combos
    e.matchCount kb).1
  unfold invMC at h
  have hr := resetCombosList_mc
    (sendPendingLoop (tallyBuffer e.keyBuffer) e.pendingCombos e.combos e.matchCount kb).1
    (sendPendingLoop (tallyBuffer e.keyBuffer) e.pendingCombos e.combos e.matchCount kb).2.1
  show (resetCombosList
      (sendPendingLoop (tallyBuffer e.keyBuffer) e.pendingCombos e.combos e.matchCount kb).1
      (sendPendingLoop (tallyBuffer e.keyBuffer) e.pendingCombos e.combos e.matchCount kb).2.1).2 =
    indSum (resetCombosList
      (sendPendingLoop (tallyBuffer e.keyBuffer) e.pendingCombos e.combos e.matchCount kb).1
      (sendPendingLoop (tallyBuffer e.keyBuffer) e.pendingCombos e.combos e.matchCount kb).2.1).1
  omega

/-- `send_pending_combos` touches no timer state. -/
theorem sendPendingCombos_kb (e : EState) (kb : KState) :
    kbNeutral kb (sendPendingCombos e kb).2 :=
  (sendPendingLoop_props (tallyBuffer e.keyBuffer) e.pendingCombos e.combos e.matchCount kb).2

/-- `send_pending_combos` does not touch the stored `_timeout` handle. -/
theorem sendPendingCombos_handle (e : EState) (kb : KState) :
    (sendPendingCombos e kb).1.timeoutHandle = e.timeoutHandle := rfl

/-- Under the timer invariant, the `cancel_timeout` guard at the top of
`on_press` / `on_release` leaves no timer armed. -/
theorem cancelStored_armed (e : EState) (kb : KState) (h : timerInv e kb) :
    (cancelStored e kb).armed = [] := by
  obtain ⟨h1 | ⟨hh, ha, hs⟩, _⟩ := h
  · unfold cancelStored
    cases e.timeoutHandle
    · exact h1
    · show (cancelTimeout kb _).armed = []
      unfold cancelTimeout
      rw [h1]
      rfl
  · unfold cancelStored
    rw [hs]
    show (cancelTimeout kb hh).armed = []
    unfold cancelTimeout
    rw [ha]
    simp

theorem cancelStored_maxArmed (e : EState) (kb : KState) :
    (cancelStored e kb).maxArmed = kb.maxArmed := by
  unfold cancelStored cancelTimeout
  cases e.timeoutHandle <;> rfl

theorem cancelStored_clock (e : EState) (kb : KState) :
    (cancelStored e kb).clock = kb.clock := by
  unfold cancelStored cancelTimeout
  cases e.timeoutHandle <;> rfl

theorem cancelStored_calls (e : EState) (kb : KState) :
    ∃ s, (cancelStored e kb).timerCalls = kb.timerCalls ++ s := by
  unfold cancelStored cancelTimeout
  cases e.timeoutHandle
  · exact ⟨[], by simp⟩
  · exact ⟨[TimerCall.cancel _], rfl⟩

/-- When a handle is stored, the guard cancels exactly that handle first. -/
theorem cancelStored_calls_of_stored (e : EState) (kb : KState) (hh : ℕ)
    (h : e.timeoutHandle = some hh) :
    (cancelStored e kb).timerCalls = kb.timerCalls ++ [TimerCall.cancel hh] := by
  unfold cancelStored
  rw [h]
  rfl

theorem good_refl (e : EState) (kb : KState) : Good e kb e kb :=
  ⟨id, id, ⟨[], by simp⟩, id⟩

theorem good_trans {e1 : EState} {kb1 : KState} {e2 : EState} {kb2 : KState}
    {e3 : EState} {kb3 : KState}
    (a : Good e1 kb1 e2 kb2) (b : Good e2 kb2 e3 kb3) : Good e1 kb1 e3 kb3 := by
  obtain ⟨a1, a2, ⟨s1, hs1⟩, a4⟩ := a
  obtain ⟨b1, b2, ⟨s2, hs2⟩, b4⟩ := b
  exact ⟨fun h => b1 (a1 h), fun h => b2 (a2 h),
    ⟨s1 ++ s2, by rw [hs2, hs1, List.append_assoc]⟩, fun h => b4 (a4 h)⟩

/-- A step that keeps the registry, `match_count`, the stored handle, the
armed set and the high-water mark, and only appends timer calls, is `Good`. -/
theorem good_of_eqs {e : EState} {kb : KState} {e' : EState} {kb' : KState}
    (hc : e'.combos = e.combos) (hm : e'.matchCount = e.matchCount)
    (hh : e'.timeoutHandle = e.timeoutHandle) (ha : kb'.armed = kb.armed)
    (hx : kb'.maxArmed = kb.maxArmed) (ht : ∃ s, kb'.timerCalls = kb.timerCalls ++ s) :
    Good e kb e' kb' := by
  refine ⟨?_, ?_, ht, ?_⟩
  · intro h
    unfold invMC at *
    rw [hc, hm]
    exact h
  · rintro ⟨h1, h2⟩
    refine ⟨?_, by rw [hx]; exact h2⟩
    cases h1 with
    | inl h => exact Or.inl (by rw [ha, h])
    | inr h =>
      obtain ⟨hhd, h3, h4⟩ := h
      exact Or.inr ⟨hhd, by rw [ha, h3], by rw [hh, h4]⟩
  · intro h
    rw [hh]
    exact h

/-- The tail of `on_press` preserves the invariants: the `match_count`
invariant follows from the combo-loop accounting, the timer invariant is
re-established from the post-cancel state (no timer armed), the timer-call
trace only grows, and the stored handle is never cleared. -/
theorem onPressFinish_props (e1 : EState) (kb1 : KState) (key : Key) (ic : Option Coord)
    (now : ℤ) (r : PressLoopRes) :
    ((r.mc = e1.matchCount - indSum e1.combos + indSum r.combos) → invMC e1 →
        invMC (onPressFinish e1 kb1 key ic now r).e) ∧
      (kb1.armed = [] → kb1.maxArmed ≤ 1 →
        timerInv (onPressFinish e1 kb1 key ic now r).e (onPressFinish e1 kb1 key ic now r).kb) ∧
      (∃ s, (onPressFinish e1 kb1 key ic now r).kb.timerCalls = kb1.timerCalls ++ s) ∧
      (e1.timeoutHandle.isSome = true →
        (onPressFinish e1 kb1 key ic now r).e.timeoutHandle.isSome = true) := by
  unfold onPressFinish
  dsimp only
  split_ifs with h1 h2 h3
  · -- reenter
    dsimp only [PressStep.e, PressStep.kb]
    refine ⟨?_, ?_, ⟨[], by simp⟩, fun h => h⟩
    · intro hr hinv
      unfold invMC at *
      dsimp only
      omega
    · intro h0 hm1
      exact ⟨Or.inl h0, hm1⟩
  · -- forward downstream and reset
    dsimp only [PressStep.e, PressStep.kb]
    refine ⟨?_, ?_, ⟨[], by simp [resumeProcessKey]⟩, fun h => h⟩
    · intro hr hinv
      apply resetCombos_invMC
      unfold invMC at *
      dsimp only
      omega
    · intro h0 hm1
      exact ⟨Or.inl h0, hm1⟩
  · -- send pending combos
    dsimp only [PressStep.e, PressStep.kb]
    obtain ⟨ha, hx, ht, _⟩ := sendPendingCombos_kb
      {e1 with
        combos := r.combos
        matchCount := r.mc
        pendingCombos := r.pending
        keyBuffer := e1.keyBuffer ++ [⟨ic, key, true, now⟩]} kb1
    refine ⟨?_, ?_, ⟨[], by rw [ht]; simp⟩, ?_⟩
    · intro hr hinv
      apply sendPendingCombos_invMC
      unfold invMC at *
      dsimp only
      omega
    · intro h0 hm1
      refine ⟨Or.inl ?_, ?_⟩
      · rw [ha, h0]
      · rw [hx]
        exact hm1
    · intro h
      rw [sendPendingCombos_handle]
      exact h
  · -- arm the timer
    dsimp only [PressStep.e, PressStep.kb]
    refine ⟨?_, ?_, ⟨[TimerCall.set kb1.nextHandle r.longest], rfl⟩, fun _ => rfl⟩
    · intro hr hinv
      unfold invMC at *
      dsimp only
      omega
    · intro h0 hm1
      constructor
      · refine Or.inr ⟨kb1.nextHandle, ?_, rfl⟩
        show kb1.nextHandle :: kb1.armed = [kb1.nextHandle]
        rw [h0]
      · show max kb1.maxArmed (kb1.nextHandle :: kb1.armed).length ≤ 1
        rw [h0]
        simp [hm1]

/-- Composition of timer-call suffix facts. -/
theorem calls_suffix_trans {k1 k2 k3 : KState}
    (a : ∃ s, k2.timerCalls = k1.timerCalls ++ s)
    (b : ∃ s, k3.timerCalls = k2.timerCalls ++ s) :
    ∃ s, k3.timerCalls = k1.timerCalls ++ s := by
  obtain ⟨s1, h1⟩ := a
  obtain ⟨s2, h2⟩ := b
  exact ⟨s1 ++ s2, by rw [h2, h1, List.append_assoc]⟩

/-- `onPressCore` preserves the invariants. -/
theorem onPressCore_good (e : EState) (kb : KState) (key : Key) (ic : Option Coord) :
    Good e kb (onPressCore e kb key ic).e (onPressCore e kb key ic).kb := by
  unfold onPressCore
  dsimp only
  refine ⟨?_, ?_, ?_, ?_⟩
  · intro hinv
    exact (onPressFinish_props _ _ key ic _ _).1
      (onPressLoop_mc key ic _ _ e.combos 0 e.matchCount) hinv
  · intro ht
    refine (onPressFinish_props _ _ key ic _ _).2.1 (cancelStored_armed e kb ht) ?_
    rw [cancelStored_maxArmed]
    exact ht.2
  · exact calls_suffix_trans (cancelStored_calls e kb)
      ((onPressFinish_props _ _ key ic _ _).2.2.1)
  · intro hs
    exact (onPressFinish_props _ _ key ic _ _).2.2.2 hs

/-- `onReleaseCore` (when it does not raise) preserves the invariants. -/
theorem onReleaseCore_good (e : EState) (kb : KState) (key : Key) (ic : Option Coord)
    (rc : RelCore) (h : onReleaseCore e kb key ic = some rc) : Good e kb rc.e rc.kb := by
  unfold onReleaseCore at h
  dsimp only at h
  cases hloop : onReleaseLoop key ic e.combos e.matchCount (cancelStored e kb) 0 true false with
  | none =>
    rw [hloop] at h
    exact Option.noConfusion h
  | some r =>
    rw [hloop] at h
    dsimp only at h
    obtain ⟨hmc, hn⟩ := onReleaseLoop_props key ic e.combos e.matchCount (cancelStored e kb)
      0 true false r hloop
    have hsuf : ∃ s, r.kb.timerCalls = kb.timerCalls ++ s :=
      calls_suffix_trans (cancelStored_calls e kb) ⟨[], by rw [hn.2.2.1]; simp⟩
    have harm : timerInv e kb → r.kb.armed = [] := fun ht => by
      rw [hn.1]
      exact cancelStored_armed e kb ht
    have hmax : timerInv e kb → r.kb.maxArmed ≤ 1 := fun ht => by
      rw [hn.2.1, cancelStored_maxArmed]
      exact ht.2
    split_ifs at h with hb h1 h2 h3 h4
    · -- buffered release; match_count == 0: reset and clear buffer
      injection h with h5
      subst h5
      refine ⟨?_, ?_, hsuf, fun hx => hx⟩
      · intro hinv
        show invMC (resetCombos {e with
          combos := r.combos
          matchCount := r.mc
          keyBuffer := e.keyBuffer ++ [⟨ic, key, false, (cancelStored e kb).clock⟩]})
        apply resetCombos_invMC
        unfold invMC at *
        dsimp only
        omega
      · intro ht
        exact ⟨Or.inl (harm ht), hmax ht⟩
    · -- buffered release; arm the timer
      injection h with h5
      subst h5
      refine ⟨?_, ?_, ?_, fun _ => rfl⟩
      · intro hinv
        unfold invMC at *
        dsimp only
        omega
      · intro ht
        constructor
        · refine Or.inr ⟨r.kb.nextHandle, ?_, rfl⟩
          show r.kb.nextHandle :: r.kb.armed = [r.kb.nextHandle]
          rw [harm ht]
        · show max r.kb.maxArmed (r.kb.nextHandle :: r.kb.armed).length ≤ 1
          rw [harm ht]
          simp [hmax ht]
      · exact calls_suffix_trans hsuf ⟨[TimerCall.set r.kb.nextHandle r.longest], rfl⟩
    · -- buffered release; flush required
      injection h with h5
      subst h5
      refine ⟨?_, ?_, hsuf, fun hx => hx⟩
      · intro hinv
        unfold invMC at *
        dsimp only
        omega
      · intro ht
        exact ⟨Or.inl (harm ht), hmax ht⟩
    · -- release not buffered; match_count == 0
      injection h with h5
      subst h5
      refine ⟨?_, ?_, hsuf, fun hx => hx⟩
      · intro hinv
        show invMC (resetCombos {e with combos := r.combos, matchCount := r.mc})
        apply resetCombos_invMC
        unfold invMC at *
        dsimp only
        omega
      · intro ht
        exact ⟨Or.inl (harm ht), hmax ht⟩
    · -- release not buffered; arm the timer
      injection h with h5
      subst h5
      refine ⟨?_, ?_, ?_, fun _ => rfl⟩
      · intro hinv
        unfold invMC at *
        dsimp only
        omega
      · intro ht
        constructor
        · refine Or.inr ⟨r.kb.nextHandle, ?_, rfl⟩
          show r.kb.nextHandle :: r.kb.armed = [r.kb.nextHandle]
          rw [harm ht]
        · show max r.kb.maxArmed (r.kb.nextHandle :: r.kb.armed).length ≤ 1
          rw [harm ht]
          simp [hmax ht]
      · exact calls_suffix_trans hsuf ⟨[TimerCall.set r.kb.nextHandle r.longest], rfl⟩
    · -- release not buffered; flush required
      injection h with h5
      subst h5
      refine ⟨?_, ?_, hsuf, fun hx => hx⟩
      · intro hinv
        unfold invMC at *
        dsimp only
        omega
      · intro ht
        exact ⟨Or.inl (harm ht), hmax ht⟩

/-- Setting `start_timepoint` alone preserves everything. -/
theorem good_setStart (e : EState) (kb : KState) (x : Option ℤ) :
    Good e kb {e with startTimepoint := x} kb :=
  ⟨fun h => h, fun h => h, ⟨[], by simp⟩, fun h => h⟩

/-- Forwarding one event downstream preserves everything. -/
theorem good_resume (e : EState) (kb : KState) (key : Key) (p : Bool) (ic : Option Coord) :
    Good e kb e (resumeProcessKey kb key p ic) :=
  ⟨fun h => h, fun h => h, ⟨[], by simp [resumeProcessKey]⟩, fun h => h⟩

/-- Popping the head of the key buffer and forwarding it preserves
everything. -/
theorem good_tailResume (e : EState) (kb : KState) (rest : List BufEvent) (key : Key)
    (p : Bool) (ic : Option Coord) :
    Good e kb {e with keyBuffer := rest} (resumeProcessKey kb key p ic) :=
  ⟨fun h => h, fun h => h, ⟨[], by simp [resumeProcessKey]⟩, fun h => h⟩

/-- The press-anchored replay preparation in `flush_buffers` (reset the
registry, set `start_timepoint` to the popped timestamp, clear the buffer,
forward the popped press) preserves the invariants. -/
theorem good_flushPrep (e : EState) (kb : KState) (rest : List BufEvent) (t : ℤ)
    (key : Key) (p : Bool) (ic : Option Coord) :
    Good e kb
      {resetCombos {e with keyBuffer := rest} with startTimepoint := some t, keyBuffer := []}
      (resumeProcessKey kb key p ic) :=
  ⟨fun hinv => resetCombos_invMC {e with keyBuffer := rest} hinv, fun h => h,
    ⟨[], by simp [resumeProcessKey]⟩, fun h => h⟩

/-- `send_pending_combos` preserves the invariants. -/
theorem good_sendPending (e : EState) (kb : KState) :
    Good e kb (sendPendingCombos e kb).1 (sendPendingCombos e kb).2 := by
  obtain ⟨ha, hx, ht, _⟩ := sendPendingCombos_kb e kb
  refine ⟨sendPendingCombos_invMC e kb, ?_, ⟨[], by rw [ht]; simp⟩, ?_⟩
  · rintro ⟨h1, h2⟩
    refine ⟨?_, by rw [hx]; exact h2⟩
    cases h1 with
    | inl hh => exact Or.inl (by rw [ha, hh])
    | inr hh =>
      obtain ⟨hd, p3, p4⟩ := hh
      exact Or.inr ⟨hd, by rw [ha, p3], by rw [sendPendingCombos_handle, p4]⟩
  · intro hx2
    rw [sendPendingCombos_handle]
    exact hx2

/-- Every engine computation that completes normally preserves the
`match_count` invariant and the timer invariant, only appends to the
timer-call trace and never clears the stored `_timeout` handle. -/
theorem run_good : ∀ (fuel : ℕ) (call : Call) (e : EState) (kb : KState) (e' : EState)
    (kb' : KState), run fuel call e kb = RunRes.ok e' kb' → Good e kb e' kb' := by
  intro fuel
  induction fuel with
  | zero =>
    intro call e kb e' kb' h
    exact RunRes.noConfusion h
  | succ n ih =>
    intro call e kb e' kb' h
    cases call with
    | doProcessKey key ip ic =>
      simp only [run] at h
      cases ip
      · exact ih (Call.doRelease key ic) e kb e' kb' h
      · exact ih (Call.doPress key ic) e kb e' kb' h
    | doPress key ic =>
      simp only [run] at h
      cases hcore : onPressCore e kb key ic with
      | done e1 kb1 =>
        rw [hcore] at h
        dsimp only at h
        injection h with h1 h2
        subst h1
        subst h2
        have hg := onPressCore_good e kb key ic
        rw [hcore] at hg
        exact hg
      | reenter e1 kb1 =>
        rw [hcore] at h
        dsimp only at h
        have hg := onPressCore_good e kb key ic
        rw [hcore] at hg
        dsimp only [PressStep.e, PressStep.kb] at hg
        cases hf : run n Call.doFlush e1 kb1 with
        | ok e2 kb2 =>
          rw [hf] at h
          dsimp only [RunRes.bind] at h
          exact good_trans hg (good_trans (ih Call.doFlush e1 kb1 e2 kb2 hf)
            (good_trans (good_setStart e2 kb2 (some kb2.clock))
              (ih (Call.doProcessKey key true ic) _ kb2 e' kb' h)))
        | exn =>
          rw [hf] at h
          exact RunRes.noConfusion h
        | fuelOut =>
          rw [hf] at h
          exact RunRes.noConfusion h
    | doRelease key ic =>
      simp only [run] at h
      cases hcore : onReleaseCore e kb key ic with
      | none =>
        rw [hcore] at h
        exact RunRes.noConfusion h
      | some r =>
        rw [hcore] at h
        dsimp only at h
        have hg := onReleaseCore_good e kb key ic r hcore
        cases hfl : r.needFlush
        · rw [hfl] at h
          simp only [Bool.false_eq_true, if_false, RunRes.bind] at h
          injection h with h1 h2
          subst h1
          subst h2
          cases hpr : r.propagate
          · exact hg
          · exact good_trans hg (good_resume r.e r.kb key false ic)
        · rw [hfl] at h
          simp only [if_true] at h
          cases hf : run n Call.doFlush r.e r.kb with
          | ok e2 kb2 =>
            rw [hf] at h
            dsimp only [RunRes.bind] at h
            injection h with h1 h2
            subst h1
            subst h2
            refine good_trans hg (good_trans (ih Call.doFlush r.e r.kb e2 kb2 hf) ?_)
            cases r.propagate
            · exact good_refl e2 kb2
            · exact good_resume e2 kb2 key false ic
          | exn =>
            rw [hf] at h
            exact RunRes.noConfusion h
          | fuelOut =>
            rw [hf] at h
            exact RunRes.noConfusion h
    | doFlush =>
      simp only [run] at h
      by_cases hp : e.pendingCombos ≠ []
      · rw [if_pos hp] at h
        exact good_trans (good_sendPending e kb)
          (ih Call.doFlushLoop (sendPendingCombos e kb).1 (sendPendingCombos e kb).2 e' kb' h)
      · rw [if_neg hp] at h
        exact ih Call.doFlushLoop e kb e' kb' h
    | doFlushLoop =>
      simp only [run] at h
      cases hbuf : e.keyBuffer with
      | nil =>
        rw [hbuf] at h
        dsimp only at h
        injection h with h1 h2
        subst h1
        subst h2
        exact good_refl e kb
      | cons ev rest =>
        rw [hbuf] at h
        dsimp only at h
        cases hip : ev.isPressed
        · rw [hip] at h
          simp only [Bool.false_eq_true, if_false] at h
          exact good_trans (good_tailResume e kb rest ev.key false ev.coord)
            (ih Call.doFlushLoop {e with keyBuffer := rest}
              (resumeProcessKey kb ev.key false ev.coord) e' kb' h)
        · rw [hip] at h
          rw [if_pos rfl] at h
          cases hr : run n (Call.doReplay ev.key ev.coord rest)
              {resetCombos {e with keyBuffer := rest} with
                startTimepoint := some ev.time
                keyBuffer := []}
              (resumeProcessKey kb ev.key true ev.coord) with
          | ok e3 kb3 =>
            rw [hr] at h
            dsimp only [RunRes.bind] at h
            exact good_trans (good_flushPrep e kb rest ev.time ev.key true ev.coord)
              (good_trans (ih _ _ _ e3 kb3 hr) (ih Call.doFlushLoop e3 kb3 e' kb' h))
          | exn =>
            rw [hr] at h
            exact RunRes.noConfusion h
          | fuelOut =>
            rw [hr] at h
            exact RunRes.noConfusion h
    | doReplay key ic old =>
      cases old with
      | nil =>
        simp only [run] at h
        injection h with h1 h2
        subst h1
        subst h2
        exact good_refl e kb
      | cons bev old' =>
        simp only [run] at h
        cases hpk : run n (Call.doProcessKey bev.key bev.isPressed bev.coord) e
            (if !bev.isPressed && decide (key = bev.key) && decide (ic = bev.coord) then
              resumeProcessKey kb bev.key bev.isPressed bev.coord
            else kb) with
        | ok e2 kb2 =>
          rw [hpk] at h
          dsimp only [RunRes.bind] at h
          have g1 : Good e kb e
              (if !bev.isPressed && decide (key = bev.key) && decide (ic = bev.coord) then
                resumeProcessKey kb bev.key bev.isPressed bev.coord
              else kb) := by
            split_ifs
            · exact good_resume e kb bev.key bev.isPressed bev.coord
            · exact good_refl e kb
          exact good_trans g1 (good_trans (ih _ _ _ e2 kb2 hpk)
            (ih (Call.doReplay key ic old') e2 kb2 e' kb' h))
        | exn =>
          rw [hpk] at h
          exact RunRes.noConfusion h
        | fuelOut =>
          rw [hpk] at h
          exact RunRes.noConfusion h

/-- The timer system dequeuing a firing (or ignoring a cancelled) handle
preserves the timer invariant. -/
theorem timerInv_erase (e : EState) (kb : KState) (hh : ℕ) (now : ℤ)
    (ht : timerInv e kb) :
    timerInv e {kb with clock := now, armed := kb.armed.erase hh} := by
  obtain ⟨h1 | ⟨h0, ha, hs⟩, h2⟩ := ht
  · refine ⟨Or.inl ?_, h2⟩
    show kb.armed.erase hh = []
    rw [h1]
    rfl
  · by_cases hx : h0 = hh
    · refine ⟨Or.inl ?_, h2⟩
      show kb.armed.erase hh = []
      rw [ha, hx]
      simp
    · refine ⟨Or.inr ⟨h0, ?_, hs⟩, h2⟩
      show kb.armed.erase hh = [h0]
      rw [ha]
      rw [List.erase_cons]
      simp [hx]

/-- One external stimulus preserves the `match_count` invariant and the
timer invariant. -/
theorem runEntry_inv (fuel : ℕ) (e : EState) (kb : KState) (ent : Entry)
    (e' : EState) (kb' : KState) (h : runEntry fuel e kb ent = RunRes.ok e' kb') :
    (invMC e → invMC e') ∧ (timerInv e kb → timerInv e' kb') := by
  cases ent with
  | press k ic now =>
    have g := run_good fuel (Call.doProcessKey k true ic) e {kb with clock := now} e' kb' h
    exact ⟨g.1, fun ht => g.2.1 ht⟩
  | release k ic now =>
    have g := run_good fuel (Call.doProcessKey k false ic) e {kb with clock := now} e' kb' h
    exact ⟨g.1, fun ht => g.2.1 ht⟩
  | fire hh now =>
    unfold runEntry onTimeout flushBuffers at h
    have g := run_good fuel Call.doFlush {e with startTimepoint := none}
      {kb with clock := now, armed := kb.armed.erase hh} e' kb' h
    exact ⟨g.1, fun ht => g.2.1 (timerInv_erase e kb hh now ht)⟩

/-- A sequence of external stimuli preserves the `match_count` invariant and
the timer invariant. -/
theorem runEntries_inv : ∀ (es : List Entry) (fuel : ℕ) (e : EState) (kb : KState)
    (e' : EState) (kb' : KState), runEntries fuel e kb es = RunRes.ok e' kb' →
    (invMC e → invMC e') ∧ (timerInv e kb → timerInv e' kb') := by
  intro es
  induction es with
  | nil =>
    intro fuel e kb e' kb' h
    simp only [runEntries] at h
    injection h with h1 h2
    subst h1
    subst h2
    exact ⟨fun x => x, fun x => x⟩
  | cons ent rest ih =>
    intro fuel e kb e' kb' h
    simp only [runEntries] at h
    cases he : runEntry fuel e kb ent with
    | ok e1 kb1 =>
      rw [he] at h
      dsimp only [RunRes.bind] at h
      obtain ⟨a1, a2⟩ := runEntry_inv fuel e kb ent e1 kb1 he
      obtain ⟨b1, b2⟩ := ih fuel e1 kb1 e' kb' h
      exact ⟨fun x => b1 (a1 x), fun x => b2 (a2 x)⟩
    | exn =>
      rw [he] at h
      exact RunRes.noConfusion h
    | fuelOut =>
      rw [he] at h
      exact RunRes.noConfusion h

/-- Composition of a cancel-first fact with a suffix fact. -/
theorem calls_cancel_cons {k1 k2 k3 : KState} {hh : ℕ}
    (a : k2.timerCalls = k1.timerCalls ++ [TimerCall.cancel hh])
    (b : ∃ s, k3.timerCalls = k2.timerCalls ++ s) :
    ∃ s, k3.timerCalls = k1.timerCalls ++ TimerCall.cancel hh :: s := by
  obtain ⟨s, hb⟩ := b
  refine ⟨s, ?_⟩
  rw [hb, a, List.append_assoc, List.singleton_append]

/-- When a handle is stored, `onPressCore`'s very first timer-facility call
is `cancel_timeout` on that handle; everything later only appends. -/
theorem onPressCore_trace (e : EState) (kb : KState) (key : Key) (ic : Option Coord)
    (hh : ℕ) (hs : e.timeoutHandle = some hh) :
    ∃ s, (onPressCore e kb key ic).kb.timerCalls =
      kb.timerCalls ++ TimerCall.cancel hh :: s := by
  unfold onPressCore
  dsimp only
  exact calls_cancel_cons (cancelStored_calls_of_stored e kb hh hs)
    ((onPressFinish_props _ _ key ic _ _).2.2.1)

/-- When a handle is stored, `onReleaseCore`'s very first timer-facility
call is `cancel_timeout` on that handle; everything later only appends. -/
theorem onReleaseCore_trace (e : EState) (kb : KState) (key : Key) (ic : Option Coord)
    (hh : ℕ) (rc : RelCore) (hs : e.timeoutHandle = some hh)
    (h : onReleaseCore e kb key ic = some rc) :
    ∃ s, rc.kb.timerCalls = kb.timerCalls ++ TimerCall.cancel hh :: s := by
  unfold onReleaseCore at h
  dsimp only at h
  cases hloop : onReleaseLoop key ic e.combos e.matchCount (cancelStored e kb) 0 true false with
  | none =>
    rw [hloop] at h
    exact Option.noConfusion h
  | some r =>
    rw [hloop] at h
    dsimp only at h
    obtain ⟨_, hn⟩ := onReleaseLoop_props key ic e.combos e.matchCount (cancelStored e kb)
      0 true false r hloop
    have hrkb : ∃ s, r.kb.timerCalls = (cancelStored e kb).timerCalls ++ s :=
      ⟨[], by rw [hn.2.2.1]; simp⟩
    split_ifs at h with hb h1 h2 h3 h4 <;>
      injection h with h5 <;>
      subst h5
    · exact calls_cancel_cons (cancelStored_calls_of_stored e kb hh hs) hrkb
    · refine calls_cancel_cons (cancelStored_calls_of_stored e kb hh hs) ?_
      exact calls_suffix_trans hrkb ⟨[TimerCall.set r.kb.nextHandle r.longest], rfl⟩
    · exact calls_cancel_cons (cancelStored_calls_of_stored e kb hh hs) hrkb
    · exact calls_cancel_cons (cancelStored_calls_of_stored e kb hh hs) hrkb
    · refine calls_cancel_cons (cancelStored_calls_of_stored e kb hh hs) ?_
      exact calls_suffix_trans hrkb ⟨[TimerCall.set r.kb.nextHandle r.longest], rfl⟩
    · exact calls_cancel_cons (cancelStored_calls_of_stored e kb hh hs) hrkb

/-- When a handle is stored, a full `on_press` run that completes normally
calls `cancel_timeout` on that handle before any other timer call. -/
theorem onPress_trace (fuel : ℕ) (e : EState) (kb : KState) (key : Key) (ic : Option Coord)
    (hh : ℕ) (e' : EState) (kb' : KState) (hs : e.timeoutHandle = some hh)
    (h : onPress fuel e kb key ic = RunRes.ok e' kb') :
    ∃ s, kb'.timerCalls = kb.timerCalls ++ TimerCall.cancel hh :: s := by
  cases fuel with
  | zero => exact RunRes.noConfusion h
  | succ n =>
    unfold onPress at h
    simp only [run] at h
    cases hcore : onPressCore e kb key ic with
    | done e1 kb1 =>
      rw [hcore] at h
      dsimp only at h
      injection h with h1 h2
      subst h1
      subst h2
      have t1 := onPressCore_trace e kb key ic hh hs
      rw [hcore] at t1
      exact t1
    | reenter e1 kb1 =>
      rw [hcore] at h
      dsimp only at h
      cases hf : run n Call.doFlush e1 kb1 with
      | ok e2 kb2 =>
        rw [hf] at h
        dsimp only [RunRes.bind] at h
        have t1 := onPressCore_trace e kb key ic hh hs
        rw [hcore] at t1
        dsimp only [PressStep.kb] at t1
        obtain ⟨s1, hs1⟩ := t1
        obtain ⟨s2, hs2⟩ := (run_good n Call.doFlush e1 kb1 e2 kb2 hf).2.2.1
        obtain ⟨s3, hs3⟩ := (run_good n (Call.doProcessKey key true ic)
          {e2 with startTimepoint := some kb2.clock} kb2 e' kb' h).2.2.1
        refine ⟨s1 ++ (s2 ++ s3), ?_⟩
        rw [hs3, hs2, hs1]
        simp [List.append_assoc]
      | exn =>
        rw [hf] at h
        exact RunRes.noConfusion h
      | fuelOut =>
        rw [hf] at h
        exact RunRes.noConfusion h

/-- When a handle is stored, a full `on_release` run that completes normally
calls `cancel_timeout` on that handle before any other timer call. -/
theorem onRelease_trace (fuel : ℕ) (e : EState) (kb : KState) (key : Key)
    (ic : Option Coord) (hh : ℕ) (e' : EState) (kb' : KState)
    (hs : e.timeoutHandle = some hh)
    (h : onRelease fuel e kb key ic = RunRes.ok e' kb') :
    ∃ s, kb'.timerCalls = kb.timerCalls ++ TimerCall.cancel hh :: s := by
  cases fuel with
  | zero => exact RunRes.noConfusion h
  | succ n =>
    unfold onRelease at h
    simp only [run] at h
    cases hcore : onReleaseCore e kb key ic with
    | none =>
      rw [hcore] at h
      exact RunRes.noConfusion h
    | some r =>
      rw [hcore] at h
      dsimp only at h
      have t1 := onReleaseCore_trace e kb key ic hh r hs hcore
      cases hfl : r.needFlush
      · rw [hfl] at h
        simp only [Bool.false_eq_true, if_false, RunRes.bind] at h
        injection h with h1 h2
        subst h1
        subst h2
        cases r.propagate
        · exact t1
        · obtain ⟨s1, hs1⟩ := t1
          exact ⟨s1, by show (resumeProcessKey r.kb key false ic).timerCalls = _; rw [← hs1]; rfl⟩
      · rw [hfl] at h
        simp only [if_true] at h
        cases hf : run n Call.doFlush r.e r.kb with
        | ok e2 kb2 =>
          rw [hf] at h
          dsimp only [RunRes.bind] at h
          injection h with h1 h2
          subst h1
          subst h2
          obtain ⟨s1, hs1⟩ := t1
          obtain ⟨s2, hs2⟩ := (run_good n Call.doFlush r.e r.kb e2 kb2 hf).2.2.1
          refine ⟨s1 ++ s2, ?_⟩
          have hk : (if r.propagate = true then resumeProcessKey kb2 key false ic
              else kb2).timerCalls = kb2.timerCalls := by
            cases r.propagate <;> rfl
          rw [hk, hs2, hs1]
          simp [List.append_assoc]
        | exn =>
          rw [hf] at h
          exact RunRes.noConfusion h
        | fuelOut =>
          rw [hf] at h
          exact RunRes.noConfusion h

/-- `reset_combos` treats each combo independently; resetting an
already-reset combo changes nothing and leaves the threaded `match_count`
untouched. -/
theorem resetOne_idem (c : Combo) (mc mc' : ℤ) :
    resetOne (resetOne c mc).1 mc' = ((resetOne c mc).1, mc') := by
  cases c with
  | mk kind matchKeys result fr pk tmo mcrd rem prs st => cases st <;> rfl

/-- `reset_combos` over a list is idempotent and its second pass leaves the
threaded `match_count` untouched. -/
theorem resetCombosList_idem (cs : List Combo) (mc mc' : ℤ) :
    resetCombosList (resetCombosList cs mc).1 mc' = ((resetCombosList cs mc).1, mc') := by
  induction cs generalizing mc mc' with
  | nil => rfl
  | cons c cs ih =>
    simp only [resetCombosList]
    rw [resetOne_idem]
    simp only [ih]

/-- C8.  On an idle engine — no combo `ACTIVE`, empty `key_buffer` and
`pending_combos` — `reset_combos` is idempotent: running it twice yields the
same engine and per-combo state (`remaining`, `pressed`, `state`,
`match_count`) as running it once. -/
theorem reset_combos_idempotent (e : EState)
    (_hactive : ∀ c ∈ e.combos, c.state ≠ ComboState.active)
    (_hbuf : e.keyBuffer = []) (_hpend : e.pendingCombos = []) :
    resetCombos (resetCombos e) = resetCombos e := by
  simp only [resetCombos]
  rw [resetCombosList_idem]

/-- Witness for C8: a concrete idle primed engine. -/
theorem reset_combos_idempotent_witness :
    (∀ c ∈ eIdle.combos, c.state ≠ ComboState.active) ∧ eIdle.keyBuffer = [] ∧
      eIdle.pendingCombos = [] ∧ resetCombos (resetCombos eIdle) = resetCombos eIdle :=
  ⟨by decide, by decide, by decide,
    reset_combos_idempotent eIdle (by decide) (by decide) (by decide)⟩

/-- C9 (counterexample).  The claim states that constructing a second
`Combos` instance leaves the `match_count` observed by an existing instance
unchanged.  It does not: after the first instance's bootup two combos are
MATCHING and the observed `match_count` is 2, and `Combos.__init__` of the
second instance assigns the class attribute `Combos.match_count = 0`, which
is the very attribute the first instance reads. -/
theorem match_count_shared_counterexample :
    observedMatchCount (constructSecondInstance demoWorld) ≠ observedMatchCount demoWorld := by
  decide

/-- C4.  In every engine state reachable from a freshly constructed `Combos`
instance (all combos in `RESET`, as the constructors leave them) by any
interleaving of `process_key` presses/releases and timer firings,
`match_count` equals the number of registered combos whose state is
`MATCHING`. -/
theorem match_count_invariant (cs : List Combo)
    (hfresh : ∀ c ∈ cs, c.state = ComboState.reset) (entries : List Entry) (fuel : ℕ) :
    mcOk (runEntries fuel (initCombos cs) initKb entries) = true := by
  cases hr : runEntries fuel (initCombos cs) initKb entries with
  | ok e' kb' =>
    have hbase : invMC (initCombos cs) := (indSum_fresh cs hfresh).symm
    have hinv := (runEntries_inv entries fuel (initCombos cs) initKb e' kb' hr).1 hbase
    unfold mcOk
    rw [beq_iff_eq]
    exact hinv.trans (indSum_eq_filterLength e'.combos)
  | exn => rfl
  | fuelOut => rfl

/-- Witness for C4: a concrete two-combo registry driven through presses,
releases and a timer firing. -/
theorem match_count_invariant_witness :
    (∀ c ∈ [chordAB, seqABC], c.state = ComboState.reset) ∧
      mcOk (runEntries 60 (initCombos [chordAB, seqABC]) initKb demoEntries) = true :=
  ⟨by decide, match_count_invariant [chordAB, seqABC] (by decide) demoEntries 60⟩

/-- C7.  During any sequence of `on_press`, `on_release` and `on_timeout`
entries, at most one timer is ever armed at any moment (the high-water mark
`maxArmed` recorded by the keyboard model never exceeds one): each entry
cancels the outstanding timer, if any, before arming a new one or leaving
the engine with no timer. -/
theorem at_most_one_timer (cs : List Combo) (entries : List Entry) (fuel : ℕ) :
    timerOk (runEntries fuel (initCombos cs) initKb entries) = true := by
  cases hr : runEntries fuel (initCombos cs) initKb entries with
  | ok e' kb' =>
    have hbase : timerInv (initCombos cs) initKb := ⟨Or.inl rfl, by decide⟩
    have hinv := (runEntries_inv entries fuel (initCombos cs) initKb e' kb' hr).2 hbase
    unfold timerOk
    exact decide_eq_true hinv.2
  | exn => rfl
  | fuelOut => rfl

/-- C10.  After `on_timeout` runs, the stored timer handle in `_timeout` is
not cleared — no engine entry ever resets it to `None` once set — and the
next `on_press` or `on_release` call from a state with a stored handle
(fired or cancelled) invokes `keyboard.cancel_timeout` on that handle as its
very first timer-facility call, hence before any new timer is armed. -/
theorem timeout_handle_not_cleared (fuel : ℕ) (e : EState) (kb : KState) (hh : ℕ)
    (key : Key) (ic : Option Coord) (hs : e.timeoutHandle = some hh) :
    (∀ e' kb', onTimeout fuel e kb = RunRes.ok e' kb' → e'.timeoutHandle.isSome = true) ∧
      (∀ e' kb', onPress fuel e kb key ic = RunRes.ok e' kb' →
        ∃ s, kb'.timerCalls = kb.timerCalls ++ TimerCall.cancel hh :: s) ∧
      (∀ e' kb', onRelease fuel e kb key ic = RunRes.ok e' kb' →
        ∃ s, kb'.timerCalls = kb.timerCalls ++ TimerCall.cancel hh :: s) := by
  refine ⟨?_, ?_, ?_⟩
  · intro e' kb' h
    unfold onTimeout flushBuffers at h
    refine (run_good fuel Call.doFlush {e with startTimepoint := none} kb e' kb' h).2.2.2 ?_
    show e.timeoutHandle.isSome = true
    rw [hs]
    rfl
  · intro e' kb' h
    exact onPress_trace fuel e kb key ic hh e' kb' hs h
  · intro e' kb' h
    exact onRelease_trace fuel e kb key ic hh e' kb' hs h

/-- Witness for C10: a concrete engine whose stored handle is `5`. -/
theorem timeout_handle_not_cleared_witness :
    eDemo.timeoutHandle = some 5 ∧
      ((∀ e' kb', onTimeout 10 eDemo initKb = RunRes.ok e' kb' →
          e'.timeoutHandle.isSome = true) ∧
        (∀ e' kb', onPress 10 eDemo initKb kA none = RunRes.ok e' kb' →
          ∃ s, kb'.timerCalls = initKb.timerCalls ++ TimerCall.cancel 5 :: s) ∧
        (∀ e' kb', onRelease 10 eDemo initKb kA none = RunRes.ok e' kb' →
          ∃ s, kb'.timerCalls = initKb.timerCalls ++ TimerCall.cancel 5 :: s)) :=
  ⟨rfl, timeout_handle_not_cleared 10 eDemo initKb 5 kA none rfl⟩

/-- C9 (amended).  `match_count` and `start_timepoint` are class attributes
shared by all `Combos` instances: `Combos.__init__` of a second instance
zeroes the `match_count` that every existing instance observes (and resets
the class-level `start_timepoint`), while the first instance's per-instance
state — its registry with all per-combo state, and its instance-level
`start_timepoint` slot, which shadows the class attribute once the instance
has written it — is left unchanged. -/
theorem match_count_class_attribute (w : PyWorld) :
    observedMatchCount (constructSecondInstance w) = 0 ∧
      (constructSecondInstance w).inst1Combos = w.inst1Combos ∧
      (constructSecondInstance w).inst1InstStart = w.inst1InstStart :=
  ⟨rfl, rfl, rfl⟩

end KmkCombos
